import Mathlib

/-!
Shallow embedding of the `listen-tracing` capture layer (`src/lib.rs`,
`src/tracing_utils.rs`): the `LogEntry` record model, the
`BroadcastLogLayer::on_event` capture hook (timestamp construction via
`Utc::now().to_rfc3339()`, message extraction via `TracingVisitor`,
broadcast send, and the spawned background unit that appends to the
bounded cache with drain-to-1000 eviction and then appends one JSON
line to `logs.jsonl`), together with the serde_json serialization of
`LogEntry` and the query model.
-/

namespace Listen

/-! ### Decimal-digit helpers, shared by the timestamp rendering and the
JSON escape machinery. -/

/-- The ASCII digit character for a value below 10. -/
def digitCh (n : Nat) : Char := Char.ofNat (48 + n)

/-- Boolean test for an ASCII decimal digit. -/
def isDigitB (c : Char) : Bool := 48 ≤ c.toNat && c.toNat ≤ 57

/-- Zero-padded fixed-width decimal rendering, most significant digit
first (the behaviour of a `%0kd`-style format). -/
def padDigits : Nat → Nat → List Char
  | 0, _ => []
  | k + 1, n => padDigits k (n / 10) ++ [digitCh (n % 10)]

/-- Value of a list of decimal digit characters, most significant first. -/
def digitsVal (l : List Char) : Nat := l.foldl (fun a c => a * 10 + (c.toNat - 48)) 0

theorem toNat_digitCh (n : Nat) (h : n < 10) : (digitCh n).toNat = 48 + n := by
  unfold digitCh
  interval_cases n <;> decide

theorem ofNat_toNat_char (c : Char) (h : c.toNat < 55296) : Char.ofNat c.toNat = c := by
  have hval : c.toNat.isValidChar := Or.inl (by exact_mod_cast h)
  rcases c with ⟨⟨v, hv⟩, hvalid⟩
  simp only [Char.toNat] at *
  simp [Char.ofNat, hval, Char.ofNatAux]
  apply Char.ext
  simp [Char.ofNatAux]
  rfl

theorem padDigits_length (k n : Nat) : (padDigits k n).length = k := by
  induction k generalizing n with
  | zero => rfl
  | succ k ih => simp [padDigits, ih]

theorem isDigitB_digitCh (n : Nat) (h : n < 10) : isDigitB (digitCh n) = true := by
  unfold isDigitB digitCh
  interval_cases n <;> decide

theorem padDigits_all_digit (k n : Nat) : (padDigits k n).all isDigitB = true := by
  induction k generalizing n with
  | zero => rfl
  | succ k ih =>
    simp [padDigits, List.all_append, ih, isDigitB_digitCh (n % 10) (Nat.mod_lt n (by norm_num))]

theorem digitsVal_append_singleton (xs : List Char) (c : Char) :
    digitsVal (xs ++ [c]) = digitsVal xs * 10 + (c.toNat - 48) := by
  simp [digitsVal]

theorem digitsVal_padDigits (k n : Nat) (h : n < 10 ^ k) :
    digitsVal (padDigits k n) = n := by
  induction k generalizing n with
  | zero =>
    simp [pow_zero] at h
    simp [padDigits, digitsVal, h]
  | succ k ih =>
    have hd : n / 10 < 10 ^ k := by
      rw [Nat.div_lt_iff_lt_mul (by norm_num)]
      calc n < 10 ^ (k + 1) := h
        _ = 10 ^ k * 10 := by ring
    rw [padDigits, digitsVal_append_singleton, ih (n / 10) hd,
      toNat_digitCh (n % 10) (Nat.mod_lt n (by norm_num))]
    omega

/-! ### Wall-clock timestamps.

`on_event` stamps every record with `Utc::now().to_rfc3339()`
(`src/lib.rs` line 72).  `Utc::now()` is the external wall-clock input of
the hook; we embed one clock reading as its broken-down UTC calendar
fields plus nanoseconds, and embed chrono's `to_rfc3339` rendering
(format `%Y-%m-%dT%H:%M:%S%.f+00:00` with `SecondsFormat::AutoSi`
fractional seconds) over those fields. -/

structure UtcTime where
  year : Nat
  month : Nat
  day : Nat
  hour : Nat
  minute : Nat
  second : Nat
  nanos : Nat
deriving DecidableEq, Repr

/-- Field bounds under which the rendering is fixed-width per field
(always true of a real clock reading: a calendar datetime before year
10000 with `nanos < 10^9`). -/
def UtcTime.valid (t : UtcTime) : Bool :=
  t.year < 10000 && t.month < 100 && t.day < 100 && t.hour < 100 &&
    t.minute < 100 && t.second < 100 && t.nanos < 1000000000

/-- Chronological order of clock readings, encoded through a mixed-radix
key (lexicographic in the calendar fields for valid readings). -/
def UtcTime.key (t : UtcTime) : Nat :=
  (((((t.year * 100 + t.month) * 100 + t.day) * 100 + t.hour) * 100 +
    t.minute) * 100 + t.second) * 1000000000 + t.nanos

/-- chrono `SecondsFormat::AutoSi` fractional-seconds rendering: empty
when the nanosecond part is zero, otherwise millis, micros or nanos —
whichever shortest multiple-of-3 width is exact. -/
def fracPart (nanos : Nat) : List Char :=
  if nanos = 0 then []
  else if nanos % 1000000 = 0 then '.' :: padDigits 3 (nanos / 1000000)
  else if nanos % 1000 = 0 then '.' :: padDigits 6 (nanos / 1000)
  else '.' :: padDigits 9 nanos

/-- chrono's `DateTime::<Utc>::to_rfc3339` rendering of one clock
reading, as a character list. -/
def rfc3339Chars (t : UtcTime) : List Char :=
  padDigits 4 t.year ++ '-' :: padDigits 2 t.month ++ '-' :: padDigits 2 t.day ++
    'T' :: padDigits 2 t.hour ++ ':' :: padDigits 2 t.minute ++ ':' :: padDigits 2 t.second ++
    fracPart t.nanos ++ ['+', '0', '0', ':', '0', '0']

/-- The rendering `Utc::now().to_rfc3339()` as a string. -/
def toRfc3339 (t : UtcTime) : String := String.mk (rfc3339Chars t)

/-! ### Decoding an RFC-3339 timestamp back to its clock reading.

Modelled from the spec: no deserialization of timestamps appears in
`src/`; the decoder below realizes the spec's reading of a timestamp
string as the instant it denotes, for comparing timestamps in emission
order. -/

/-- Consume an expected literal from the front of the input. -/
def expectLit : List Char → List Char → Option (List Char)
  | [], l => some l
  | _ :: _, [] => none
  | p :: ps, c :: cs => if c = p then expectLit ps cs else none

/-- Parse exactly `k` decimal digits. -/
def parseNatFixed (k : Nat) (l : List Char) : Option (Nat × List Char) :=
  if (l.take k).length = k ∧ (l.take k).all isDigitB = true then
    some (digitsVal (l.take k), l.drop k)
  else none

/-- Parse an optional `AutoSi` fractional-seconds part back to
nanoseconds. -/
def parseFrac : List Char → Option (Nat × List Char)
  | [] => some (0, [])
  | c :: rest =>
    if c = '.' then
      let ds := rest.takeWhile isDigitB
      if ds.length = 0 ∨ 9 < ds.length then none
      else some (digitsVal ds * 10 ^ (9 - ds.length), rest.drop ds.length)
    else some (0, c :: rest)

/-- Parse a full rendered timestamp back to its clock reading. -/
def decodeTs (l : List Char) : Option UtcTime := do
  let (y, l) ← parseNatFixed 4 l
  let l ← expectLit ['-'] l
  let (mo, l) ← parseNatFixed 2 l
  let l ← expectLit ['-'] l
  let (d, l) ← parseNatFixed 2 l
  let l ← expectLit ['T'] l
  let (h, l) ← parseNatFixed 2 l
  let l ← expectLit [':'] l
  let (mi, l) ← parseNatFixed 2 l
  let l ← expectLit [':'] l
  let (s, l) ← parseNatFixed 2 l
  let (ns, l) ← parseFrac l
  let l ← expectLit ['+', '0', '0', ':', '0', '0'] l
  match l with
  | [] => some ⟨y, mo, d, h, mi, s, ns⟩
  | _ => none

/-- The instant denoted by a rendered timestamp string, when well-formed. -/
def tsInstant (s : String) : Option Nat := (decodeTs s.data).map UtcTime.key

theorem expectLit_append (p rest : List Char) : expectLit p (p ++ rest) = some rest := by
  induction p with
  | nil => rfl
  | cons c cs ih => simp [expectLit, ih]

theorem parseNatFixed_padDigits (k n : Nat) (rest : List Char) (h : n < 10 ^ k) :
    parseNatFixed k (padDigits k n ++ rest) = some (n, rest) := by
  have key : ∀ ds : List Char, ds.length = k → ds.all isDigitB = true → digitsVal ds = n →
      parseNatFixed k (ds ++ rest) = some (n, rest) := by
    intro ds hlen hdig hval
    unfold parseNatFixed
    rw [← hlen, List.take_left, List.drop_left]
    simp [hdig, hval]
  exact key _ (padDigits_length k n) (padDigits_all_digit k n) (digitsVal_padDigits k n h)

theorem takeWhile_digits_append (a rest : List Char) (c : Char)
    (ha : a.all isDigitB = true) (hc : isDigitB c = false) :
    (a ++ c :: rest).takeWhile isDigitB = a := by
  induction a with
  | nil => simp [List.takeWhile_cons, hc]
  | cons x xs ih =>
    simp only [List.all_cons, Bool.and_eq_true] at ha
    simp [List.takeWhile_cons, ha.1, ih ha.2]

theorem parseFrac_fracPart (n : Nat) (rest : List Char) (h : n < 1000000000) :
    parseFrac (fracPart n ++ '+' :: rest) = some (n, '+' :: rest) := by
  have hplus : isDigitB '+' = false := by decide
  have key : ∀ k v : Nat, v < 10 ^ k → v * 10 ^ (9 - k) = n → 0 < k → k ≤ 9 →
      parseFrac ('.' :: (padDigits k v ++ '+' :: rest)) = some (n, '+' :: rest) := by
    intro k v hv hval hk0 hk9
    have htake : ((padDigits k v ++ '+' :: rest).takeWhile isDigitB) = padDigits k v :=
      takeWhile_digits_append _ _ _ (padDigits_all_digit k v) hplus
    have hlen : (padDigits k v).length = k := padDigits_length k v
    simp only [parseFrac, if_true, reduceIte, htake]
    rw [if_neg (by rw [hlen]; omega), List.drop_left, hlen,
      digitsVal_padDigits k v hv, hval]
  by_cases h0 : n = 0
  · subst h0
    simp [fracPart, parseFrac]
  · by_cases h6 : n % 1000000 = 0
    · have e3 : (10 : Nat) ^ 3 = 1000 := by norm_num
      have e6 : (10 : Nat) ^ (9 - 3) = 1000000 := by norm_num
      simp only [fracPart, h0, h6, if_neg, if_pos, List.cons_append, List.append_assoc]
      exact key 3 (n / 1000000) (by omega) (by omega) (by omega) (by omega)
    · by_cases h3 : n % 1000 = 0
      · have e3 : (10 : Nat) ^ 6 = 1000000 := by norm_num
        have e6 : (10 : Nat) ^ (9 - 6) = 1000 := by norm_num
        simp only [fracPart, h0, h6, h3, if_neg, if_pos, List.cons_append, List.append_assoc]
        exact key 6 (n / 1000) (by omega) (by omega) (by omega) (by omega)
      · have e3 : (10 : Nat) ^ 9 = 1000000000 := by norm_num
        have e6 : (10 : Nat) ^ (9 - 9) = 1 := by norm_num
        simp only [fracPart, h0, h6, h3, if_neg, List.cons_append, List.append_assoc]
        exact key 9 n (by omega) (by omega) (by omega) (by omega)

theorem expectLit_single (c : Char) (rest : List Char) :
    expectLit [c] (c :: rest) = some rest := by
  simp [expectLit]

theorem decodeTs_rfc3339 (t : UtcTime) (h : t.valid = true) :
    decodeTs (rfc3339Chars t) = some t := by
  obtain ⟨y, mo, d, hh, mi, s, ns⟩ := t
  simp only [UtcTime.valid, Bool.and_eq_true, decide_eq_true_eq] at h
  obtain ⟨⟨⟨⟨⟨⟨h1, h2⟩, h3⟩, h4⟩, h5⟩, h6⟩, h7⟩ := h
  have e4 : (10 : Nat) ^ 4 = 10000 := by norm_num
  have e2 : (10 : Nat) ^ 2 = 100 := by norm_num
  have p4 : ∀ r, parseNatFixed 4 (padDigits 4 y ++ r) = some (y, r) := fun r =>
    parseNatFixed_padDigits 4 y r (by omega)
  have p2 : ∀ v, v < 100 → ∀ r, parseNatFixed 2 (padDigits 2 v ++ r) = some (v, r) := fun v hv r =>
    parseNatFixed_padDigits 2 v r (by omega)
  have pf : ∀ r, parseFrac (fracPart ns ++ '+' :: r) = some (ns, '+' :: r) := fun r =>
    parseFrac_fracPart ns r (by omega)
  simp [decodeTs, rfc3339Chars, List.cons_append, List.append_assoc, Option.bind,
    p4, p2 mo h2, p2 d h3, p2 hh h4, p2 mi h5, p2 s h6, pf, expectLit_single, expectLit]

/-- Struct `LogEntry` from `src/lib.rs` lines 33-39: four plain string fields. -/
structure LogEntry where
  timestamp : String
  level : String
  target : String
  message : String
deriving DecidableEq, Repr

/-- Struct `LogQuery` from `src/lib.rs` lines 43-49. -/
structure LogQuery where
  level : Option String
  keyword : Option String
  page : Option Nat
  page_size : Option Nat

/-! ### The intercepted event and the field visitor. -/

/-- Enum `tracing::Level`, with its `Display` rendering used by
`event.metadata().level().to_string()` (`src/lib.rs` line 73). -/
inductive Level where
  | trace
  | debug
  | info
  | warn
  | error
deriving DecidableEq, Repr

def Level.toString : Level → String
  | .trace => "TRACE"
  | .debug => "DEBUG"
  | .info => "INFO"
  | .warn => "WARN"
  | .error => "ERROR"

/-- An intercepted `tracing::Event`: severity, target, and the named
fields in declaration order.  A field is embedded as its name together
with the `format!` Debug rendering of its value, since `dyn Debug`
values live outside the embedding. -/
structure TracingEvent where
  level : Level
  target : String
  fields : List (String × String)

/-- Struct `TracingVisitor` (`src/lib.rs` lines 106-109). -/
structure TracingVisitor where
  message : Option String
deriving DecidableEq, Repr

/-- Method `TracingVisitor::record_debug` (`src/lib.rs` lines 112-116): when the
visited field is named "message", store the Debug rendering of its
value; otherwise leave the visitor unchanged. -/
def TracingVisitor.record_debug (v : TracingVisitor) (name rendered : String) :
    TracingVisitor :=
  if name = "message" then { message := some rendered } else v

/-- Visitation `event.record(&mut visitor)`: visit every field in order, starting
from `TracingVisitor::default()` (`src/lib.rs` lines 67-68). -/
def visitFields (fields : List (String × String)) : TracingVisitor :=
  fields.foldl (fun v f => v.record_debug f.1 f.2) ⟨none⟩

/-- The `LogEntry` constructed by `on_event` (`src/lib.rs` lines 71-76):
timestamp from the wall-clock reading taken at hook invocation, level
and target from the event metadata, message from the visitor with the
`"<no message>"` placeholder when no message field was recorded. -/
def buildEntry (now : UtcTime) (ev : TracingEvent) : LogEntry :=
  { timestamp := toRfc3339 now
    level := ev.level.toString
    target := ev.target
    message := (visitFields ev.fields).message.getD "<no message>" }

/-- Clone semantics of `derive(Clone)` for `LogEntry`: clone every string field.  Used at
the two clone sites of `on_event` (the broadcast payload on line 79 and
the cache payload on line 88). -/
def cloneEntry (e : LogEntry) : LogEntry :=
  { timestamp := e.timestamp, level := e.level, target := e.target, message := e.message }

/-- Send on `tokio::sync::broadcast::Sender`: with zero live receivers it
returns `Err(SendError(value))`, otherwise `Ok(receiver_count)`; it
never blocks.  The hook discards the result (`let _ = self.tx.send(..)`,
`src/lib.rs` line 79). -/
def broadcastSend (receivers : Nat) (e : LogEntry) : Except LogEntry Nat :=
  if receivers = 0 then Except.error e else Except.ok receivers

/-- The cache mutation performed by the spawned background unit
(`src/lib.rs` lines 87-92): push the entry, then if the length exceeds
1000, drain the first `len - 1000` entries. -/
def cacheAppendEvict (cache : List LogEntry) (e : LogEntry) : List LogEntry :=
  let logs := cache ++ [e]
  if logs.length > 1000 then logs.drop (logs.length - 1000) else logs

/-! ### serde_json serialization of `LogEntry`.

The background unit persists `serde_json::to_string(&*log_clone)`
followed by the newline written by `writeln!` (`src/lib.rs` line 100).
For a derived `Serialize` on a struct of four string fields, serde_json
emits the compact object with the fields in declaration order, escaping
inside string literals exactly the quote, the backslash and the control
characters below 0x20 (named short escapes for backspace, tab, newline,
form feed and carriage return, `\u00xx` with lowercase hex otherwise). -/

/-- Lowercase hexadecimal digit character for a value below 16. -/
def hexCh (n : Nat) : Char := if n < 10 then digitCh n else Char.ofNat (87 + n)

/-- serde_json's escaping of one character inside a JSON string. -/
def escapeChar (c : Char) : List Char :=
  if c = '"' then ['\\', '"']
  else if c = '\\' then ['\\', '\\']
  else if c = '\x08' then ['\\', 'b']
  else if c = '\x09' then ['\\', 't']
  else if c = '\x0a' then ['\\', 'n']
  else if c = '\x0c' then ['\\', 'f']
  else if c = '\x0d' then ['\\', 'r']
  else if c.toNat < 32 then ['\\', 'u', '0', '0', hexCh (c.toNat / 16), hexCh (c.toNat % 16)]
  else [c]

/-- serde_json's escaping of a whole string body. -/
def escapeStr (s : List Char) : List Char := s.flatMap escapeChar

/-- A JSON string literal: quote, escaped body, quote. -/
def quoteChars (s : List Char) : List Char := '"' :: escapeStr s ++ ['"']

/-- Serialization `serde_json::to_string(&entry)` for the derived `Serialize` of
`LogEntry`: the compact JSON object, fields in declaration order. -/
def jsonChars (e : LogEntry) : List Char :=
  "\x7b\"timestamp\":".data ++ quoteChars e.timestamp.data ++
    ",\"level\":".data ++ quoteChars e.level.data ++
    ",\"target\":".data ++ quoteChars e.target.data ++
    ",\"message\":".data ++ quoteChars e.message.data ++ "\x7d".data

def jsonString (e : LogEntry) : String := String.mk (jsonChars e)

/-! ### Parsing a serialized line back.

Modelled from the spec: `src/` derives only `Serialize` for `LogEntry`,
while the spec requires every durable-log line to be independently
parseable back to the original record; the JSON-object parser below is
the inverse reading of the serialized form. -/

/-- Value of one hexadecimal digit character. -/
def hexVal (c : Char) : Option Nat :=
  if 48 ≤ c.toNat ∧ c.toNat ≤ 57 then some (c.toNat - 48)
  else if 97 ≤ c.toNat ∧ c.toNat ≤ 102 then some (c.toNat - 87)
  else if 65 ≤ c.toNat ∧ c.toNat ≤ 70 then some (c.toNat - 55)
  else none

/-- The character denoted by a short escape code after a backslash. -/
def escCode (e : Char) : Option Char :=
  if e = '"' then some '"'
  else if e = '\\' then some '\\'
  else if e = '/' then some '/'
  else if e = 'b' then some '\x08'
  else if e = 'f' then some '\x0c'
  else if e = 'n' then some '\x0a'
  else if e = 'r' then some '\x0d'
  else if e = 't' then some '\x09'
  else none

/-- Parse the body of a JSON string literal up to and including its
closing quote, returning the decoded body and the remaining input. -/
def parseStringBody : List Char → Option (List Char × List Char)
  | [] => none
  | c :: rest =>
    if c = '"' then some ([], rest)
    else if c = '\\' then
      match rest with
      | [] => none
      | e :: rest2 =>
        if e = 'u' then
          match rest2 with
          | h1 :: h2 :: h3 :: h4 :: rest3 =>
            match hexVal h1, hexVal h2, hexVal h3, hexVal h4 with
            | some a, some b, some c2, some d =>
              let code := ((a * 16 + b) * 16 + c2) * 16 + d
              if code < 55296 then
                (parseStringBody rest3).map (fun p => (Char.ofNat code :: p.1, p.2))
              else none
            | _, _, _, _ => none
          | _ => none
        else
          match escCode e with
          | some ec => (parseStringBody rest2).map (fun p => (ec :: p.1, p.2))
          | none => none
    else if c.toNat < 32 then none
    else (parseStringBody rest).map (fun p => (c :: p.1, p.2))
termination_by l => l.length
decreasing_by all_goals (simp_all; try omega)

/-- Parse a complete JSON string literal. -/
def parseQuoted : List Char → Option (List Char × List Char)
  | [] => none
  | c :: rest => if c = '"' then parseStringBody rest else none

/-- Parse one serialized `LogEntry` line body back to the record. -/
def parseLine (l : List Char) : Option LogEntry := do
  let l ← expectLit "\x7b\"timestamp\":".data l
  let (ts, l) ← parseQuoted l
  let l ← expectLit ",\"level\":".data l
  let (lv, l) ← parseQuoted l
  let l ← expectLit ",\"target\":".data l
  let (tg, l) ← parseQuoted l
  let l ← expectLit ",\"message\":".data l
  let (ms, l) ← parseQuoted l
  let l ← expectLit "\x7d".data l
  match l with
  | [] => some ⟨String.mk ts, String.mk lv, String.mk tg, String.mk ms⟩
  | _ => none

/-- String-level wrapper of `parseLine`. -/
def parseLogLine (s : String) : Option LogEntry := parseLine s.data

theorem hexVal_hexCh (v : Nat) (h : v < 16) : hexVal (hexCh v) = some v := by
  unfold hexVal hexCh digitCh
  interval_cases v <;> decide

theorem parseStringBody_escape (s rest : List Char) :
    parseStringBody (escapeStr s ++ '"' :: rest) = some (s, rest) := by
  induction s with
  | nil =>
    simp only [escapeStr, List.flatMap_nil, List.nil_append]
    rw [parseStringBody.eq_def]
    simp
  | cons c s ih =>
    have hstep : escapeStr (c :: s) = escapeChar c ++ escapeStr s := by simp [escapeStr]
    rw [hstep, List.append_assoc]
    by_cases hq : c = '"'
    · subst hq
      simp only [escapeChar, if_true, reduceIte, List.cons_append]
      rw [parseStringBody.eq_def]
      simp [escCode, ih]
    · by_cases hb : c = '\\'
      · subst hb
        simp only [escapeChar, reduceIte, List.cons_append]
        rw [parseStringBody.eq_def]
        simp [escCode, ih]
      · by_cases h08 : c = '\x08'
        · subst h08
          simp only [escapeChar, reduceIte, List.cons_append]
          rw [parseStringBody.eq_def]
          simp [escCode, ih]
        · by_cases h09 : c = '\x09'
          · subst h09
            simp only [escapeChar, reduceIte, List.cons_append]
            rw [parseStringBody.eq_def]
            simp [escCode, ih]
          · by_cases h0a : c = '\x0a'
            · subst h0a
              simp only [escapeChar, reduceIte, List.cons_append]
              rw [parseStringBody.eq_def]
              simp [escCode, ih]
            · by_cases h0c : c = '\x0c'
              · subst h0c
                simp only [escapeChar, reduceIte, List.cons_append]
                rw [parseStringBody.eq_def]
                simp [escCode, ih]
              · by_cases h0d : c = '\x0d'
                · subst h0d
                  simp only [escapeChar, reduceIte, List.cons_append]
                  rw [parseStringBody.eq_def]
                  simp [escCode, ih]
                · by_cases hctl : c.toNat < 32
                  · have hdiv : c.toNat / 16 < 16 := by omega
                    have hmod : c.toNat % 16 < 16 := by omega
                    have hcode : c.toNat / 16 * 16 + c.toNat % 16 = c.toNat := by omega
                    simp only [escapeChar, hq, hb, h08, h09, h0a, h0c, h0d, hctl,
                      if_neg, if_pos, if_false, if_true, List.cons_append]
                    rw [parseStringBody.eq_def]
                    simp [hexVal_hexCh _ hdiv, hexVal_hexCh _ hmod,
                      show hexVal '0' = some 0 from by decide, hcode,
                      show c.toNat < 55296 from by omega, ofNat_toNat_char c (by omega), ih]
                  · simp only [escapeChar, hq, hb, h08, h09, h0a, h0c, h0d, hctl,
                      if_neg, if_false, List.cons_append, List.singleton_append]
                    rw [parseStringBody.eq_def]
                    simp [hq, hb, hctl, ih]

theorem parseQuoted_quoteChars (s rest : List Char) :
    parseQuoted (quoteChars s ++ rest) = some (s, rest) := by
  simp only [quoteChars, List.cons_append, List.append_assoc, List.singleton_append]
  simp [parseQuoted, parseStringBody_escape]

theorem stringMk_data (s : String) : String.mk s.data = s := rfl

theorem expectLit_self (p : List Char) : expectLit p p = some [] := by
  have h := expectLit_append p []
  simpa using h

theorem parseLine_jsonChars (e : LogEntry) : parseLine (jsonChars e) = some e := by
  obtain ⟨ts, lv, tg, ms⟩ := e
  simp [parseLine, jsonChars, List.append_assoc, expectLit, parseQuoted_quoteChars,
    Option.bind, stringMk_data]

theorem hexCh_ne_newline (v : Nat) (h : v < 16) : hexCh v ≠ '\n' := by
  unfold hexCh digitCh
  interval_cases v <;> decide

theorem newline_notin_escapeChar (c : Char) : '\n' ∉ escapeChar c := by
  unfold escapeChar
  by_cases hq : c = '"'
  · simp [hq]
  · by_cases hb : c = '\\'
    · simp [hq, hb]
    · by_cases h08 : c = '\x08'
      · simp [hq, hb, h08]
      · by_cases h09 : c = '\x09'
        · simp [hq, hb, h08, h09]
        · by_cases h0a : c = '\x0a'
          · simp [hq, hb, h08, h09, h0a]
          · by_cases h0c : c = '\x0c'
            · simp [hq, hb, h08, h09, h0a, h0c]
            · by_cases h0d : c = '\x0d'
              · simp [hq, hb, h08, h09, h0a, h0c, h0d]
              · by_cases hctl : c.toNat < 32
                · simp only [hq, hb, h08, h09, h0a, h0c, h0d, hctl, if_neg, if_pos,
                    if_false, if_true, List.mem_cons]
                  push_neg
                  refine ⟨by decide, by decide, by decide, by decide, ?_, ?_, by simp⟩
                  · exact fun hx => hexCh_ne_newline (c.toNat / 16) (by omega) hx.symm
                  · exact fun hx => hexCh_ne_newline (c.toNat % 16) (by omega) hx.symm
                · simp only [hq, hb, h08, h09, h0a, h0c, h0d, hctl, if_neg, if_false,
                    List.mem_singleton]
                  intro hx
                  rw [← hx] at hctl
                  exact hctl (by decide)

theorem newline_notin_escapeStr (s : List Char) : '\n' ∉ escapeStr s := by
  induction s with
  | nil => simp [escapeStr]
  | cons c s ih =>
    simp only [escapeStr, List.flatMap_cons, List.mem_append]
    rintro (h | h)
    · exact newline_notin_escapeChar c h
    · exact ih h

theorem newline_notin_quoteChars (s : List Char) : '\n' ∉ quoteChars s := by
  intro h
  rcases List.mem_cons.mp h with h | h
  · exact absurd h (by decide)
  · rcases List.mem_append.mp h with h | h
    · exact newline_notin_escapeStr s h
    · rcases List.mem_singleton.mp h with h
      exact absurd h (by decide)

theorem newline_notin_jsonChars (e : LogEntry) : '\n' ∉ jsonChars e := by
  intro h
  simp only [jsonChars, List.append_assoc, List.mem_append] at h
  rcases h with h | h | h | h | h | h | h | h | h
  all_goals first
    | exact absurd h (by decide)
    | exact newline_notin_quoteChars _ h

theorem takeWhile_append_stop (p : Char → Bool) (a rest : List Char) (c : Char)
    (ha : ∀ x ∈ a, p x = true) (hc : p c = false) :
    (a ++ c :: rest).takeWhile p = a := by
  induction a with
  | nil => simp [List.takeWhile_cons, hc]
  | cons x xs ih =>
    have hx : p x = true := ha x (by simp)
    simp only [List.cons_append, List.takeWhile_cons, hx]
    simp [ih (fun y hy => ha y (by simp [hy]))]

theorem dropWhile_append_stop (p : Char → Bool) (a rest : List Char) (c : Char)
    (ha : ∀ x ∈ a, p x = true) (hc : p c = false) :
    (a ++ c :: rest).dropWhile p = c :: rest := by
  induction a with
  | nil => simp [List.dropWhile_cons, hc]
  | cons x xs ih =>
    have hx : p x = true := ha x (by simp)
    simp only [List.cons_append, List.dropWhile_cons, hx]
    simp [ih (fun y hy => ha y (by simp [hy]))]

/-- Split the durable log's content into its newline-terminated lines
(content after a final unterminated line, if any, is ignored).
Modelled from the spec: line-by-line reading of the durable log is not
in `src/`; this is the reader counterpart of the `writeln!` separator. -/
def splitLines : List Char → List (List Char)
  | [] => []
  | c :: rest =>
    ((c :: rest).takeWhile (fun x => x != '\n')) ::
      splitLines (((c :: rest).dropWhile (fun x => x != '\n')).drop 1)
termination_by l => l.length
decreasing_by
  have h : ((c :: rest).dropWhile (fun x => x != '\n')).length ≤ (c :: rest).length := by
    generalize (c :: rest) = l
    induction l with
    | nil => simp
    | cons x xs ih =>
      rw [List.dropWhile_cons]
      by_cases hx : (x != '\n') = true
      · simp [hx]; omega
      · simp [hx]
  simp_all
  omega

theorem splitLines_line (a rest : List Char) (ha : '\n' ∉ a) :
    splitLines (a ++ '\n' :: rest) = a :: splitLines rest := by
  have ha' : ∀ x ∈ a, (x != '\n') = true := by
    intro x hx
    simp only [bne_iff_ne, ne_eq]
    exact fun heq => ha (heq ▸ hx)
  have hc : ('\n' != '\n') = false := by decide
  have h1 := takeWhile_append_stop (fun y => y != '\n') a rest '\n' ha' hc
  have h2 := dropWhile_append_stop (fun y => y != '\n') a rest '\n' ha' hc
  cases a with
  | nil =>
    rw [List.nil_append, splitLines.eq_def]
    simp [List.takeWhile_cons, List.dropWhile_cons]
  | cons x xs =>
    simp only [List.cons_append] at h1 h2 ⊢
    rw [splitLines.eq_def]
    simp only [h1, h2, List.drop_succ_cons, List.drop_zero]

/-- The durable-log content written by the background units of a list of
records run to completion in order: one serialized line plus the
`writeln!` newline separator per record. -/
def fileContent (rs : List LogEntry) : List Char :=
  (rs.map (fun e => jsonChars e ++ ['\n'])).flatten

theorem splitLines_fileContent (rs : List LogEntry) :
    splitLines (fileContent rs) = rs.map jsonChars := by
  induction rs with
  | nil =>
    rw [fileContent, splitLines.eq_def]
    simp
  | cons e rs ih =>
    have : fileContent (e :: rs) = jsonChars e ++ '\n' :: fileContent rs := by
      simp [fileContent, List.append_assoc]
    rw [this, splitLines_line _ _ (newline_notin_jsonChars e), ih, List.map_cons]

/-! ### The capture pipeline. -/

/-- Outcome of the filesystem interaction attempted by one background
unit: `OpenOptions::new().create(true).append(true).open("logs.jsonl")`
may fail, the `writeln!` may fail after `k` characters reached the file,
or both succeed. -/
inductive FsResult where
  | openFail : FsResult
  | writeFail : Nat → FsResult
  | ok : FsResult

/-- The line content one background unit hands to `writeln!`: the
serialized record followed by the newline separator. -/
def lineChars (e : LogEntry) : List Char := jsonChars e ++ ['\n']

/-- The spawned background unit (`src/lib.rs` lines 85-102): append the
record to the cache with eviction; then, only if the open succeeded,
best-effort append the serialized line (`if let Ok(mut file) = ... { let
_ = writeln!(..) }`): an open failure writes nothing, a write failure
leaves at most a prefix of the line, and in every case the error value is
discarded and nothing is returned to the caller. -/
def backgroundUnit (e : LogEntry) (cache : List LogEntry) (file : List Char) :
    FsResult → List LogEntry × List Char
  | .openFail => (cacheAppendEvict cache e, file)
  | .writeFail k => (cacheAppendEvict cache e, file ++ (lineChars e).take k)
  | .ok => (cacheAppendEvict cache e, file ++ lineChars e)

/-- Everything `on_event` produces, for one intercepted event: the
constructed record, the discarded broadcast result, the payload each of
the three consumers receives, and the cache and durable-log state after
the background unit completes. -/
structure HookResult where
  record : LogEntry
  sendResult : Except LogEntry Nat
  broadcastPayload : LogEntry
  cachePayload : LogEntry
  sinkPayload : LogEntry
  cacheAfter : List LogEntry
  fileAfter : List Char
deriving Repr

/-- Hook `BroadcastLogLayer::on_event` (`src/lib.rs` lines 66-103) followed by
the completion of the background unit it spawns: build the record from
the wall-clock reading and the event, send a clone on the broadcast
channel discarding the result, then append a clone to the cache and
persist the serialized record under the filesystem outcome `fs`. -/
def on_event (now : UtcTime) (ev : TracingEvent) (receivers : Nat)
    (cache : List LogEntry) (file : List Char) (fs : FsResult) : HookResult :=
  let log := buildEntry now ev
  let sendRes := broadcastSend receivers (cloneEntry log)
  let step := backgroundUnit (cloneEntry log) cache file fs
  { record := log
    sendResult := sendRes
    broadcastPayload := cloneEntry log
    cachePayload := cloneEntry log
    sinkPayload := log
    cacheAfter := step.1
    fileAfter := step.2 }

/-- The records captured by a whole trace: one wall-clock reading and one
event per hook invocation, in emission order. -/
def runTrace (clocks : List UtcTime) (evs : List TracingEvent) : List LogEntry :=
  List.zipWith buildEntry clocks evs

/-- The sequence of atomic append operations the persistence statement
issues on the `O_APPEND` file.  `writeln!(file, "{}", json)` expands to
`write_fmt(format_args!("{}\n", json))`; on an unbuffered `File` the
formatting machinery issues one `write_all` for the rendered argument
and a second one for the `"\n"` literal piece, so one record's line
reaches the file as two separate append operations. -/
def persistWriteOps (e : LogEntry) : List (List Char) := [jsonChars e, ['\n']]

/-- Predicate: `m` is an interleaving of the operation sequences `l` and `r`:
each side's operations appear in order, arbitrarily merged. -/
inductive Interleaves : List (List Char) → List (List Char) → List (List Char) → Prop
  | nil : Interleaves [] [] []
  | left {l r m} (x : List Char) : Interleaves l r m → Interleaves (x :: l) r (x :: m)
  | right {l r m} (x : List Char) : Interleaves l r m → Interleaves l (x :: r) (x :: m)

/-! ### The query model.

Modelled from the spec: `src/` declares only the `LogQuery` filter shape
(lines 43-49); the query execution over the cache — level equality,
keyword containment in `message`, pagination with `page * page_size`
skip — is specified in §4.4 of the design and embedded below.  Matching
is case-sensitive and pages are 0-based, the documented model choice. -/

/-- Substring containment on character lists. -/
def containsSub (s pat : List Char) : Bool :=
  (List.range (s.length + 1)).any (fun i => pat.isPrefixOf (s.drop i))

/-- Default page size applied when `page_size` is absent. -/
def defaultPageSize : Nat := 100

/-- One entry satisfies every supplied predicate of the filter. -/
def queryMatches (q : LogQuery) (e : LogEntry) : Bool :=
  (match q.level with
   | none => true
   | some lv => e.level == lv) &&
  (match q.keyword with
   | none => true
   | some kw => containsSub e.message.data kw.data)

/-- Query execution: filter, skip `page * page_size` matches, return at
most `page_size` of the remainder. -/
def queryLogs (cache : List LogEntry) (q : LogQuery) : List LogEntry :=
  let ps := q.page_size.getD defaultPageSize
  ((cache.filter (queryMatches q)).drop (q.page.getD 0 * ps)).take ps

/-! ### serde_json's failure mode.

`on_event` unwraps `serde_json::to_string(&*log_clone)`.  serde_json's
string serializer can fail in exactly one way for tree-shaped data
without floats: attempting to serialize a map whose key is not a string
("key must be a string").  The fragment below models the serializer over
the one-level objects a derived struct serialization produces, keeping
the non-string-key error representable. -/

inductive JsonScalar where
  | str : String → JsonScalar
  | num : Int → JsonScalar

/-- Serialization of a scalar value position. -/
def serializeScalar : JsonScalar → List Char
  | .str s => quoteChars s.data
  | .num n => (toString n).data

/-- Serialization of one `key: value` pair; a non-string key is the
serializer's error case. -/
def serializeKV : JsonScalar × JsonScalar → Except String (List Char)
  | (.str k, v) => Except.ok (quoteChars k.data ++ ':' :: serializeScalar v)
  | (.num _, _) => Except.error "key must be a string"

/-- Serialization of the pair list of an object, comma separated. -/
def serializeEntries : List (JsonScalar × JsonScalar) → Except String (List Char)
  | [] => Except.ok []
  | [kv] => serializeKV kv
  | kv :: rest => do
    let a ← serializeKV kv
    let b ← serializeEntries rest
    Except.ok (a ++ ',' :: b)

/-- Serialization `serde_json::to_string` of an object with the given pairs. -/
def serdeToString (kvs : List (JsonScalar × JsonScalar)) : Except String String := do
  let body ← serializeEntries kvs
  Except.ok (String.mk ('\x7b' :: body ++ ['\x7d']))

/-- The object the derived `Serialize` of `LogEntry` feeds to the
serializer: string keys in field declaration order, string values. -/
def LogEntry.toJsonObj (e : LogEntry) : List (JsonScalar × JsonScalar) :=
  [(.str "timestamp", .str e.timestamp), (.str "level", .str e.level),
   (.str "target", .str e.target), (.str "message", .str e.message)]

theorem cacheAppendEvict_length_le (cache : List LogEntry) (e : LogEntry) :
    (cacheAppendEvict cache e).length ≤ 1000 := by
  unfold cacheAppendEvict
  by_cases h : (cache ++ [e]).length > 1000
  · simp only [h, if_pos, List.length_drop]
    omega
  · simp only [h, if_neg, not_false_iff]
    omega

theorem cacheAppendEvict_of_overflow (cache : List LogEntry) (e : LogEntry)
    (h : (cache ++ [e]).length > 1000) :
    cacheAppendEvict cache e = (cache ++ [e]).drop ((cache ++ [e]).length - 1000) ∧
    (cacheAppendEvict cache e).length = 1000 := by
  unfold cacheAppendEvict
  simp only [h, if_pos]
  constructor
  · trivial
  · simp only [List.length_drop]
    omega


theorem cloneEntry_eq (e : LogEntry) : cloneEntry e = e := by
  cases e
  rfl

/-! ### Claim theorems. -/

/-- C1: for every cache state and newly captured record, after the
background insertion unit completes the cache length is at most 1000;
when the insertion pushes the length beyond 1000, the oldest surplus
entries are dropped so that exactly the most recent 1000 records remain,
in insertion order (the final length-1000 suffix of `cache ++ [e]`). -/
theorem C1_cache_bounded_fifo_eviction (cache : List LogEntry) (e : LogEntry) :
    (cacheAppendEvict cache e).length ≤ 1000 ∧
      ((cache ++ [e]).length > 1000 →
        (cacheAppendEvict cache e).length = 1000 ∧
          cacheAppendEvict cache e =
            (cache ++ [e]).drop ((cache ++ [e]).length - 1000)) := by
  refine ⟨cacheAppendEvict_length_le cache e, fun h => ?_⟩
  have h2 := cacheAppendEvict_of_overflow cache e h
  exact ⟨h2.2, h2.1⟩

/-- Witness for C1 at a concrete overfull cache. -/
theorem C1_cache_bounded_fifo_eviction_witness :
    (List.replicate 1000 (⟨"t", "INFO", "app", "m"⟩ : LogEntry) ++
        [(⟨"t", "INFO", "app", "m"⟩ : LogEntry)]).length > 1000 ∧
      (cacheAppendEvict (List.replicate 1000 (⟨"t", "INFO", "app", "m"⟩ : LogEntry))
          ⟨"t", "INFO", "app", "m"⟩).length = 1000 := by
  have h := C1_cache_bounded_fifo_eviction
    (List.replicate 1000 (⟨"t", "INFO", "app", "m"⟩ : LogEntry)) ⟨"t", "INFO", "app", "m"⟩
  have hlen : (List.replicate 1000 (⟨"t", "INFO", "app", "m"⟩ : LogEntry) ++
      [(⟨"t", "INFO", "app", "m"⟩ : LogEntry)]).length > 1000 := by
    rw [List.length_append, List.length_replicate]
    norm_num
  exact ⟨hlen, (h.2 hlen).1⟩

/-- C3: the filesystem outcome of the persistence attempt is swallowed.
For every outcome the background unit returns normally; the cache is
updated exactly as on the success path; the constructed record, the
broadcast delivery and its payload are unchanged; and the file grows by
at most the single attempted line (no retry): a prefix of that one
line. -/
theorem C3_persistence_failure_swallowed (now : UtcTime) (ev : TracingEvent)
    (receivers : Nat) (cache : List LogEntry) (file : List Char) (fs : FsResult) :
    (on_event now ev receivers cache file fs).cacheAfter =
        cacheAppendEvict cache (cloneEntry (buildEntry now ev)) ∧
      (on_event now ev receivers cache file fs).record =
        (on_event now ev receivers cache file FsResult.ok).record ∧
      (on_event now ev receivers cache file fs).sendResult =
        (on_event now ev receivers cache file FsResult.ok).sendResult ∧
      (on_event now ev receivers cache file fs).broadcastPayload =
        (on_event now ev receivers cache file FsResult.ok).broadcastPayload ∧
      ∃ k, (on_event now ev receivers cache file fs).fileAfter =
        file ++ (lineChars (cloneEntry (buildEntry now ev))).take k := by
  cases fs with
  | openFail =>
    refine ⟨rfl, rfl, rfl, rfl, 0, ?_⟩
    simp [on_event, backgroundUnit]
  | writeFail k =>
    refine ⟨rfl, rfl, rfl, rfl, k, ?_⟩
    simp [on_event, backgroundUnit]
  | ok =>
    refine ⟨rfl, rfl, rfl, rfl, (lineChars (cloneEntry (buildEntry now ev))).length, ?_⟩
    simp [on_event, backgroundUnit]

/-- C5: the broadcast send never produces an error the hook reacts to:
every component of the hook's outcome other than the discarded send
result is identical for any two receiver counts (in particular zero),
and the zero-receiver send is the value-returning `SendError` that the
hook silently drops. -/
theorem C5_broadcast_send_result_ignored (now : UtcTime) (ev : TracingEvent)
    (cache : List LogEntry) (file : List Char) (fs : FsResult) (r1 r2 : Nat) :
    (on_event now ev r1 cache file fs).record = (on_event now ev r2 cache file fs).record ∧
      (on_event now ev r1 cache file fs).broadcastPayload =
        (on_event now ev r2 cache file fs).broadcastPayload ∧
      (on_event now ev r1 cache file fs).cachePayload =
        (on_event now ev r2 cache file fs).cachePayload ∧
      (on_event now ev r1 cache file fs).sinkPayload =
        (on_event now ev r2 cache file fs).sinkPayload ∧
      (on_event now ev r1 cache file fs).cacheAfter =
        (on_event now ev r2 cache file fs).cacheAfter ∧
      (on_event now ev r1 cache file fs).fileAfter =
        (on_event now ev r2 cache file fs).fileAfter ∧
      broadcastSend 0 (buildEntry now ev) = Except.error (buildEntry now ev) := by
  refine ⟨rfl, rfl, rfl, rfl, rfl, rfl, ?_⟩
  simp [broadcastSend]

/-- C9: the three downstream consumers each receive a value logically
equal to the record constructed by the hook: the broadcast payload and
the cache payload are clones equal to the record, the sink serializes
the record itself, the cache append inserts exactly that value, and on
the success path the file receives exactly its serialization; cloning
is the identity on the record's value. -/
theorem C9_consumers_receive_equal_copies (now : UtcTime) (ev : TracingEvent)
    (receivers : Nat) (cache : List LogEntry) (file : List Char) (fs : FsResult) :
    (on_event now ev receivers cache file fs).broadcastPayload =
        (on_event now ev receivers cache file fs).record ∧
      (on_event now ev receivers cache file fs).cachePayload =
        (on_event now ev receivers cache file fs).record ∧
      (on_event now ev receivers cache file fs).sinkPayload =
        (on_event now ev receivers cache file fs).record ∧
      (on_event now ev receivers cache file fs).cacheAfter =
        cacheAppendEvict cache ((on_event now ev receivers cache file fs).record) ∧
      (on_event now ev receivers cache file FsResult.ok).fileAfter =
        file ++ jsonChars ((on_event now ev receivers cache file fs).record) ++ ['\n'] ∧
      cloneEntry ((on_event now ev receivers cache file fs).record) =
        (on_event now ev receivers cache file fs).record := by
  cases fs <;>
    refine ⟨cloneEntry_eq _, cloneEntry_eq _, rfl, ?_, ?_, cloneEntry_eq _⟩ <;>
    simp [on_event, backgroundUnit, cloneEntry_eq, lineChars, List.append_assoc]

/-! ### C4: message extraction. -/

/-- The Debug rendering of the last field named "message", if any. -/
def lastMsg (fields : List (String × String)) : Option String :=
  ((fields.filter (fun f => f.1 == "message")).map Prod.snd).getLast?

/-- First-some choice between two optional values. -/
def orElseO (a b : Option String) : Option String :=
  match a with
  | some x => some x
  | none => b

theorem visitor_eq_of_message (a b : TracingVisitor) (h : a.message = b.message) : a = b := by
  cases a
  cases b
  simpa using h

theorem foldl_record_debug (fields : List (String × String)) (v : TracingVisitor) :
    (fields.foldl (fun v f => v.record_debug f.1 f.2) v).message =
      orElseO (lastMsg fields) v.message := by
  induction fields generalizing v with
  | nil => simp [lastMsg, orElseO]
  | cons f fs ih =>
    rw [List.foldl_cons, ih]
    by_cases hf : f.1 = "message"
    · have hv : (v.record_debug f.1 f.2).message = some f.2 := by
        simp [TracingVisitor.record_debug, hf]
      rw [hv]
      simp only [lastMsg, List.filter_cons, hf, beq_self_eq_true, if_pos, List.map_cons,
        List.getLast?_cons]
      cases hM : ((fs.filter (fun f => f.1 == "message")).map Prod.snd).getLast? with
      | none => simp [orElseO, lastMsg, hM]
      | some m => simp [orElseO, lastMsg, hM]
    · have hv : v.record_debug f.1 f.2 = v := by
        simp [TracingVisitor.record_debug, hf]
      rw [hv]
      have : lastMsg (f :: fs) = lastMsg fs := by
        simp only [lastMsg, List.filter_cons]
        rw [if_neg (by simpa using hf)]
      rw [this]

theorem visitFields_message (fields : List (String × String)) :
    (visitFields fields).message = orElseO (lastMsg fields) none := by
  rw [visitFields, foldl_record_debug]

/-- C4: an event with no "message" field yields the fixed placeholder;
an event whose (effective, i.e. last) "message" field carries rendering
`rendered` yields exactly that rendering; and fields with any other
name never contribute — the visitor outcome only depends on the
"message"-named fields. -/
theorem C4_message_field_extraction (fields : List (String × String)) :
    ((∀ f ∈ fields, f.1 ≠ "message") →
        (visitFields fields).message.getD "<no message>" = "<no message>") ∧
      (∀ pre rendered post,
        fields = pre ++ ("message", rendered) :: post →
        (∀ g ∈ post, g.1 ≠ "message") →
        (visitFields fields).message.getD "<no message>" = rendered) ∧
      visitFields fields = visitFields (fields.filter (fun f => f.1 == "message")) := by
  refine ⟨?_, ?_, ?_⟩
  · intro h
    have hfil : fields.filter (fun f => f.1 == "message") = [] :=
      List.filter_eq_nil_iff.mpr (fun f hf => by simpa using h f hf)
    rw [visitFields_message]
    simp [lastMsg, hfil, orElseO]
  · intro pre rendered post hsplit hpost
    have hfilpost : post.filter (fun f => f.1 == "message") = [] :=
      List.filter_eq_nil_iff.mpr (fun g hg => by simpa using hpost g hg)
    rw [visitFields_message]
    have hlast : lastMsg fields = some rendered := by
      rw [hsplit]
      simp only [lastMsg, List.filter_append, List.filter_cons]
      rw [if_pos (by simp), hfilpost]
      simp [List.getLast?_concat]
    rw [hlast]
    simp [orElseO]
  · apply visitor_eq_of_message
    rw [visitFields_message, visitFields_message]
    have : lastMsg (fields.filter (fun f => f.1 == "message")) = lastMsg fields := by
      simp only [lastMsg, List.filter_filter]
      simp [Bool.and_self]
    rw [this]

/-- Witness for C4 on concrete events: one without a message field, one
with a message field rendered as `"hi"`. -/
theorem C4_message_field_extraction_witness :
    (visitFields [(("other" : String), ("1" : String))]).message.getD "<no message>" =
        "<no message>" ∧
      (visitFields [("other", "1"), ("message", "\"hi\"")]).message.getD "<no message>" =
        "\"hi\"" := by
  constructor
  · exact (C4_message_field_extraction [("other", "1")]).1 (by simp)
  · exact (C4_message_field_extraction _).2.1 [("other", "1")] "\"hi\"" [] rfl (by simp)

/-! ### C8: query semantics over the cache. -/

/-- C8: every returned entry satisfies all supplied predicates; the
result preserves the cache's stored order (it is a subsequence of the
cache); at most `page_size` entries are returned, obtained by skipping
`page * page_size` matches; a page beyond the available matches yields
the empty result rather than an error; and an empty filter returns the
full paginated cache contents. -/
theorem C8_query_filter_pagination (cache : List LogEntry) (q : LogQuery) :
    (∀ e ∈ queryLogs cache q, queryMatches q e = true) ∧
      List.Sublist (queryLogs cache q) cache ∧
      (queryLogs cache q).length ≤ q.page_size.getD defaultPageSize ∧
      queryLogs cache q =
        ((cache.filter (queryMatches q)).drop
          (q.page.getD 0 * q.page_size.getD defaultPageSize)).take
          (q.page_size.getD defaultPageSize) ∧
      ((cache.filter (queryMatches q)).length ≤
          q.page.getD 0 * q.page_size.getD defaultPageSize →
        queryLogs cache q = []) ∧
      (q.level = none → q.keyword = none →
        queryLogs cache q =
          (cache.drop (q.page.getD 0 * q.page_size.getD defaultPageSize)).take
            (q.page_size.getD defaultPageSize)) := by
  refine ⟨?_, ?_, ?_, rfl, ?_, ?_⟩
  · intro e he
    have h1 : e ∈ cache.filter (queryMatches q) :=
      List.mem_of_mem_drop (List.mem_of_mem_take he)
    exact (List.mem_filter.mp h1).2
  · exact ((List.take_sublist _ _).trans (List.drop_sublist _ _)).trans
      (List.filter_sublist cache)
  · exact List.length_take_le _ _
  · intro h
    rw [queryLogs]
    rw [List.drop_eq_nil_of_le h, List.take_nil]
  · intro hl hk
    rw [queryLogs]
    have : cache.filter (queryMatches q) = cache := by
      have hm : ∀ e, queryMatches q e = true := by
        intro e
        simp [queryMatches, hl, hk]
      calc cache.filter (queryMatches q) = cache.filter (fun _ => true) := by
            exact List.filter_congr (fun e _ => hm e)
        _ = cache := List.filter_true cache
    rw [this]

/-- Witness for C8: a two-entry cache queried with no filters at an
out-of-range page returns the empty result. -/
theorem C8_query_filter_pagination_witness :
    queryLogs [⟨"t1", "INFO", "app", "hello"⟩, ⟨"t2", "WARN", "app", "world"⟩]
        ⟨none, none, some 5, some 1⟩ = [] := by
  have h := (C8_query_filter_pagination
    [⟨"t1", "INFO", "app", "hello"⟩, ⟨"t2", "WARN", "app", "world"⟩]
    ⟨none, none, some 5, some 1⟩).2.2.2.2.1
  apply h
  decide

/-! ### C2: the durable log round-trips. -/

/-- C2: the settled durable log of a record sequence splits into exactly
one line per record (a serialized line contains no newline); each line
is the record’s serde_json serialization; parsing any line back yields a
record equal to the original — in particular the parsed lines of the log
are exactly the captured records, so the multisets agree. -/
theorem C2_durable_log_roundtrip (rs : List LogEntry) (e : LogEntry) :
    splitLines (fileContent rs) = rs.map jsonChars ∧
      (splitLines (fileContent rs)).map parseLine = rs.map some ∧
      parseLogLine (jsonString e) = some e ∧
      '\n' ∉ jsonChars e := by
  refine ⟨splitLines_fileContent rs, ?_, ?_, newline_notin_jsonChars e⟩
  · rw [splitLines_fileContent, List.map_map]
    simp [Function.comp, parseLine_jsonChars]
  · exact parseLine_jsonChars e

/-! ### C10: serialization of a record cannot fail. -/

/-- C10: serde_json serialization of a `LogEntry` — an object with four
string keys and four string values — always succeeds (the serializer’s
only failure mode, a non-string map key, cannot occur), producing the
serialized line; hence the `unwrap` in the background unit never
panics. -/
theorem C10_serialization_never_fails (e : LogEntry) :
    serdeToString e.toJsonObj = Except.ok (jsonString e) := by
  obtain ⟨ts, lv, tg, ms⟩ := e
  simp [serdeToString, LogEntry.toJsonObj, serializeEntries, serializeKV, serializeScalar,
    jsonString, jsonChars, quoteChars, escapeStr, escapeChar, Bind.bind, Except.bind,
    List.append_assoc]

/-! ### C7: one line is not one append operation. -/

theorem parseLine_append_two (a b : LogEntry) :
    parseLine (jsonChars a ++ jsonChars b) = none := by
  obtain ⟨ts, lv, tg, ms⟩ := a
  simp [parseLine, jsonChars, List.append_assoc, expectLit, parseQuoted_quoteChars,
    Option.bind]

theorem splitLines_nil : splitLines ([] : List Char) = [] := by
  rw [splitLines.eq_def]

/-- C7: the persistence statement emits a record’s line as two separate
append operations (serialized record, then separator) rather than one,
and under the interleaving of two concurrent background units that runs
both body writes before both separators, the resulting log content
splits into a corrupted first line — the concatenation of the two
serialized records — which parses as no record, plus an empty line. -/
theorem C7_line_written_in_two_ops (a b : LogEntry) :
    persistWriteOps a ≠ [lineChars a] ∧
      Interleaves (persistWriteOps a) (persistWriteOps b)
        [jsonChars a, jsonChars b, ['\n'], ['\n']] ∧
      splitLines ([jsonChars a, jsonChars b, ['\n'], ['\n']] : List (List Char)).flatten =
        [jsonChars a ++ jsonChars b, []] ∧
      parseLine (jsonChars a ++ jsonChars b) = none := by
  refine ⟨?_, ?_, ?_, parseLine_append_two a b⟩
  · intro h
    have hlen := congrArg List.length h
    simp [persistWriteOps, lineChars] at hlen
  · exact .left _ (.right _ (.left _ (.right _ .nil)))
  · have hflat : ([jsonChars a, jsonChars b, ['\n'], ['\n']] : List (List Char)).flatten
        = (jsonChars a ++ jsonChars b) ++ '\n' :: '\n' :: [] := by
      simp
    rw [hflat]
    have hnl : '\n' ∉ jsonChars a ++ jsonChars b := by
      intro h
      rcases List.mem_append.mp h with h | h
      exacts [newline_notin_jsonChars a h, newline_notin_jsonChars b h]
    rw [splitLines_line _ _ hnl]
    have h1 : splitLines ('\n' :: ([] : List Char)) = [] :: splitLines [] := by
      have h := splitLines_line [] [] (by simp)
      simpa using h
    rw [h1, splitLines_nil]

/-! ### C6: timestamps come from the wall clock; monotonicity needs a
monotone clock. -/

theorem tsInstant_toRfc3339 (t : UtcTime) (h : t.valid = true) :
    tsInstant (toRfc3339 t) = some t.key := by
  rw [tsInstant, toRfc3339, show (String.mk (rfc3339Chars t)).data = rfc3339Chars t from rfl,
    decodeTs_rfc3339 t h]
  rfl

/-- Counterexample to C6 as stated: the hook stamps each record with the
wall clock as read at that invocation, and nothing prevents the clock
from stepping backwards between two invocations; with the second
reading one second before the first, the two captured records carry
strictly decreasing timestamps (both as denoted instants and as
strings), violating “monotonically non-decreasing in emission
order”. -/
theorem C6_timestamps_can_decrease_cex :
    (⟨2024, 1, 1, 0, 0, 0, 0⟩ : UtcTime).key < (⟨2024, 1, 1, 0, 0, 1, 0⟩ : UtcTime).key ∧
      runTrace [⟨2024, 1, 1, 0, 0, 1, 0⟩, ⟨2024, 1, 1, 0, 0, 0, 0⟩]
          [⟨Level.info, "app", []⟩, ⟨Level.info, "app", []⟩] =
        [buildEntry ⟨2024, 1, 1, 0, 0, 1, 0⟩ ⟨Level.info, "app", []⟩,
          buildEntry ⟨2024, 1, 1, 0, 0, 0, 0⟩ ⟨Level.info, "app", []⟩] ∧
      tsInstant (buildEntry ⟨2024, 1, 1, 0, 0, 1, 0⟩ ⟨Level.info, "app", []⟩).timestamp =
        some (⟨2024, 1, 1, 0, 0, 1, 0⟩ : UtcTime).key ∧
      tsInstant (buildEntry ⟨2024, 1, 1, 0, 0, 0, 0⟩ ⟨Level.info, "app", []⟩).timestamp =
        some (⟨2024, 1, 1, 0, 0, 0, 0⟩ : UtcTime).key ∧
      (buildEntry ⟨2024, 1, 1, 0, 0, 0, 0⟩ ⟨Level.info, "app", []⟩).timestamp ≠
        (buildEntry ⟨2024, 1, 1, 0, 0, 1, 0⟩ ⟨Level.info, "app", []⟩).timestamp := by
  refine ⟨by decide, by decide, ?_, ?_, by decide⟩
  · exact tsInstant_toRfc3339 ⟨2024, 1, 1, 0, 0, 1, 0⟩ (by decide)
  · exact tsInstant_toRfc3339 ⟨2024, 1, 1, 0, 0, 0, 0⟩ (by decide)

/-- C6 amended: every record’s timestamp is the RFC-3339 rendering of
the wall-clock reading taken at hook-invocation time and is independent
of the event’s fields; and — provided the successive wall-clock
readings are valid and non-decreasing — the timestamps of the captured
records denote non-decreasing instants in emission order. -/
theorem C6_timestamp_wallclock_monotonic (clocks : List UtcTime) (evs : List TracingEvent)
    (hval : ∀ t ∈ clocks, t.valid = true)
    (hmono : ∀ i j (hi : i < clocks.length) (hj : j < clocks.length), i ≤ j →
      (clocks.get ⟨i, hi⟩).key ≤ (clocks.get ⟨j, hj⟩).key) :
    (∀ now ev fs, (buildEntry now ev).timestamp = toRfc3339 now ∧
        (buildEntry now ⟨ev.level, ev.target, fs⟩).timestamp = (buildEntry now ev).timestamp) ∧
      ∀ i j (hi : i < (runTrace clocks evs).length) (hj : j < (runTrace clocks evs).length),
        i ≤ j →
        ∃ a b, tsInstant ((runTrace clocks evs).get ⟨i, hi⟩).timestamp = some a ∧
          tsInstant ((runTrace clocks evs).get ⟨j, hj⟩).timestamp = some b ∧ a ≤ b := by
  constructor
  · intro now ev fs
    exact ⟨rfl, rfl⟩
  · intro i j hi hj hij
    have hi' : i < clocks.length := by
      rw [runTrace, List.length_zipWith] at hi
      omega
    have hj' : j < clocks.length := by
      rw [runTrace, List.length_zipWith] at hj
      omega
    have hie : i < evs.length := by
      rw [runTrace, List.length_zipWith] at hi
      omega
    have hje : j < evs.length := by
      rw [runTrace, List.length_zipWith] at hj
      omega
    have hgi : (runTrace clocks evs).get ⟨i, hi⟩ =
        buildEntry (clocks.get ⟨i, hi'⟩) (evs.get ⟨i, hie⟩) := by
      simp [runTrace, List.get_eq_getElem, List.getElem_zipWith]
    have hgj : (runTrace clocks evs).get ⟨j, hj⟩ =
        buildEntry (clocks.get ⟨j, hj'⟩) (evs.get ⟨j, hje⟩) := by
      simp [runTrace, List.get_eq_getElem, List.getElem_zipWith]
    refine ⟨(clocks.get ⟨i, hi'⟩).key, (clocks.get ⟨j, hj'⟩).key, ?_, ?_,
      hmono i j hi' hj' hij⟩
    · rw [hgi]
      exact tsInstant_toRfc3339 _ (hval _ (List.get_mem clocks i hi'))
    · rw [hgj]
      exact tsInstant_toRfc3339 _ (hval _ (List.get_mem clocks j hj'))

/-- Witness for the amended C6 on a concrete two-event trace with a
non-decreasing clock. -/
theorem C6_timestamp_wallclock_monotonic_witness :
    ∃ a b,
      tsInstant ((runTrace [⟨2024, 1, 1, 0, 0, 0, 0⟩, ⟨2024, 1, 1, 0, 0, 1, 500000000⟩]
          [⟨Level.info, "app", []⟩, ⟨Level.warn, "app", []⟩]).get ⟨0, by decide⟩).timestamp =
        some a ∧
      tsInstant ((runTrace [⟨2024, 1, 1, 0, 0, 0, 0⟩, ⟨2024, 1, 1, 0, 0, 1, 500000000⟩]
          [⟨Level.info, "app", []⟩, ⟨Level.warn, "app", []⟩]).get ⟨1, by decide⟩).timestamp =
        some b ∧ a ≤ b := by
  have h := (C6_timestamp_wallclock_monotonic
    [⟨2024, 1, 1, 0, 0, 0, 0⟩, ⟨2024, 1, 1, 0, 0, 1, 500000000⟩]
    [⟨Level.info, "app", []⟩, ⟨Level.warn, "app", []⟩]
    (by intro t ht; fin_cases ht <;> decide)
    (by
      intro i j hi hj hij
      have hi2 : i < 2 := by simpa using hi
      have hj2 : j < 2 := by simpa using hj
      interval_cases i <;> interval_cases j <;>
        first
          | omega
          | (simp only [List.get_cons_zero, List.get_cons_succ, UtcTime.key]
             norm_num))).2
  exact h 0 1 (by decide) (by decide) (by omega)

end Listen
